import Mathlib

/-!
Verification of the CURIE library (compact URI algebra and percent-decoding
codec).  Go strings are embedded as lists of bytes (`List Nat`, each entry
below 256 for genuine inputs); Go's fallible or partial operations return
`Option`, with `none` marking a runtime fault (out-of-bounds index).
All definitions are translated from the Go source of the repository; the
narrow slices of the Go standard library that the code calls (`unicode/utf8`,
`net/url.PathEscape`, `unicode.IsGraphic`, `net/url.Parse`) are modelled at
their boundary, as documented on each definition.
-/

namespace Curie

/-- Go string as a byte sequence. -/
abbrev GoStr := List Nat

/-- Byte value of a Lean character sequence, UTF-8 encoded: used to write
concrete Go strings readably.  Standard UTF-8 encoder (Char never holds a
surrogate). -/
def utf8Encode (r : Nat) : List Nat :=
  if r < 0x80 then [r]
  else if r < 0x800 then [0xC0 + r / 0x40, 0x80 + r % 0x40]
  else if r < 0x10000 then
    if 0xD800 ≤ r ∧ r ≤ 0xDFFF then [0xEF, 0xBF, 0xBD]
    else [0xE0 + r / 0x1000, 0x80 + (r / 0x40) % 0x40, 0x80 + r % 0x40]
  else if r ≤ 0x10FFFF then
    [0xF0 + r / 0x40000, 0x80 + (r / 0x1000) % 0x40,
     0x80 + (r / 0x40) % 0x40, 0x80 + r % 0x40]
  else [0xEF, 0xBF, 0xBD]

/-- UTF-8 bytes of a Lean string literal (Go source literals are UTF-8). -/
def strBytes (s : String) : GoStr := s.data.flatMap (fun c => utf8Encode c.toNat)

/-! ## codec.go -/

/-- Translation of `ishex` (codec.go): is the byte an ASCII hex digit. -/
def ishex (c : Nat) : Bool := (48 ≤ c ∧ c ≤ 57) ∨ (97 ≤ c ∧ c ≤ 102) ∨ (65 ≤ c ∧ c ≤ 70)

/-- Translation of `unhex` (codec.go). -/
def unhex (c : Nat) : Nat :=
  if 48 ≤ c ∧ c ≤ 57 then c - 48
  else if 97 ≤ c ∧ c ≤ 102 then c - 97 + 10
  else if 65 ≤ c ∧ c ≤ 70 then c - 65 + 10
  else 0

/-- Translation of `checkReserved` (codec.go): RFC 3987 reserved delimiters
: / ? # [ ] @ ! $ & ' ( ) * + , ; = by byte value. -/
def checkReserved (b : Nat) : Bool :=
  b = 58 ∨ b = 47 ∨ b = 63 ∨ b = 35 ∨ b = 91 ∨ b = 93 ∨ b = 64 ∨
  b = 33 ∨ b = 36 ∨ b = 38 ∨ b = 39 ∨ b = 40 ∨ b = 41 ∨ b = 42 ∨
  b = 43 ∨ b = 44 ∨ b = 59 ∨ b = 61

/-- Partial model of Go's unicode.IsGraphic, faithful on the code points this
development evaluates it at (ASCII, Latin-1 supplement, Greek, Cyrillic, and
the replacement character U+FFFD, which Go classifies as graphic).  Go's real
table covers categories L, M, N, P, S, Zs over all of Unicode; code points
outside the ranges below are not reached by any theorem in this file. -/
def isGraphic (r : Nat) : Bool :=
  (0x20 ≤ r ∧ r ≤ 0x7E) ∨
  (0xA0 ≤ r ∧ r ≤ 0xFF ∧ r ≠ 0xAD) ∨
  (0x370 ≤ r ∧ r ≤ 0x3FF ∧ r ≠ 0x378 ∧ r ≠ 0x379 ∧
    ¬(0x380 ≤ r ∧ r ≤ 0x383) ∧ r ≠ 0x38B ∧ r ≠ 0x38D ∧ r ≠ 0x3A2) ∨
  (0x400 ≤ r ∧ r ≤ 0x4FF) ∨
  r = 0xFFFD

/-- Model of Go utf8.RuneStart: b & 0xC0 != 0x80. -/
def runeStart (b : Nat) : Bool := ¬(0x80 ≤ b ∧ b < 0xC0)

/-- Helper for the two-byte case of utf8.DecodeRune: second byte must lie in
the accept range [lo, hi]; rune is (b0 & 0x1F)<<6 | (b1 & 0x3F). -/
def utf8Decode2 (b0 : Nat) (rest : List Nat) (lo hi : Nat) : Nat × Nat :=
  match rest with
  | b1 :: _ =>
    if b1 < lo ∨ hi < b1 then (0xFFFD, 1)
    else ((b0 % 0x20) * 0x40 + b1 % 0x40, 2)
  | [] => (0xFFFD, 1)

/-- Helper for the three-byte case of utf8.DecodeRune (short input also
yields (RuneError, 1), as in Go). -/
def utf8Decode3 (b0 : Nat) (rest : List Nat) (lo hi : Nat) : Nat × Nat :=
  match rest with
  | b1 :: b2 :: _ =>
    if b1 < lo ∨ hi < b1 then (0xFFFD, 1)
    else if b2 < 0x80 ∨ 0xBF < b2 then (0xFFFD, 1)
    else ((b0 % 0x10) * 0x1000 + (b1 % 0x40) * 0x40 + b2 % 0x40, 3)
  | _ => (0xFFFD, 1)

/-- Helper for the four-byte case of utf8.DecodeRune. -/
def utf8Decode4 (b0 : Nat) (rest : List Nat) (lo hi : Nat) : Nat × Nat :=
  match rest with
  | b1 :: b2 :: b3 :: _ =>
    if b1 < lo ∨ hi < b1 then (0xFFFD, 1)
    else if b2 < 0x80 ∨ 0xBF < b2 then (0xFFFD, 1)
    else if b3 < 0x80 ∨ 0xBF < b3 then (0xFFFD, 1)
    else ((b0 % 0x8) * 0x40000 + (b1 % 0x40) * 0x1000 + (b2 % 0x40) * 0x40 + b3 % 0x40, 4)
  | _ => (0xFFFD, 1)

/-- Model of Go utf8.DecodeRune: the first-byte table written out as range
cases (sizes and second-byte accept ranges exactly as in Go's
first/acceptRanges tables); returns (rune, size), with (RuneError, 1) on
invalid or short input and (RuneError, 0) on empty input. -/
def utf8DecodeRune (p : List Nat) : Nat × Nat :=
  match p with
  | [] => (0xFFFD, 0)
  | b0 :: rest =>
    if b0 < 0x80 then (b0, 1)
    else if 0xC2 ≤ b0 ∧ b0 ≤ 0xDF then utf8Decode2 b0 rest 0x80 0xBF
    else if b0 = 0xE0 then utf8Decode3 b0 rest 0xA0 0xBF
    else if 0xE1 ≤ b0 ∧ b0 ≤ 0xEC then utf8Decode3 b0 rest 0x80 0xBF
    else if b0 = 0xED then utf8Decode3 b0 rest 0x80 0x9F
    else if 0xEE ≤ b0 ∧ b0 ≤ 0xEF then utf8Decode3 b0 rest 0x80 0xBF
    else if b0 = 0xF0 then utf8Decode4 b0 rest 0x90 0xBF
    else if 0xF1 ≤ b0 ∧ b0 ≤ 0xF3 then utf8Decode4 b0 rest 0x80 0xBF
    else if b0 = 0xF4 then utf8Decode4 b0 rest 0x80 0x8F
    else (0xFFFD, 1)

/-- Model of Go utf8.DecodeLastRune: steps back at most UTFMax bytes looking
for a rune start (Go leaves start at lim-1 when none is found, clamped to 0),
decodes forward from there and rejects when the decoded size does not reach
the end. -/
def utf8DecodeLastRune (p : List Nat) : Nat × Nat :=
  if p = [] then (0xFFFD, 0)
  else
    let e := p.length
    let last := p.getD (e - 1) 0
    if last < 0x80 then (last, 1)
    else
      let lim := e - 4
      let start :=
        match (List.range' lim (e - 1 - lim)).reverse.find? (fun j => runeStart (p.getD j 0)) with
        | some j => j
        | none => if lim = 0 then 0 else lim - 1
      let rs := utf8DecodeRune (p.drop start)
      if start + rs.2 ≠ e then (0xFFFD, 1) else rs

/-- Upper-case hex digit byte, as Go's upperhex table. -/
def upperHexDigit (n : Nat) : Nat := if n < 10 then 48 + n else 55 + n

/-- Model of Go net/url shouldEscape for path segments (mode
encodePathSegment): alphanumerics and - _ . ~ are kept; of the sub-delims
$ & + , / : ; = ? @ only / ; , ? are escaped; every other byte is escaped. -/
def shouldEscapePathSeg (c : Nat) : Bool :=
  if (97 ≤ c ∧ c ≤ 122) ∨ (65 ≤ c ∧ c ≤ 90) ∨ (48 ≤ c ∧ c ≤ 57) then false
  else if c = 45 ∨ c = 95 ∨ c = 46 ∨ c = 126 then false
  else if c = 36 ∨ c = 38 ∨ c = 43 ∨ c = 44 ∨ c = 47 ∨ c = 58 ∨
          c = 59 ∨ c = 61 ∨ c = 63 ∨ c = 64 then
    (c = 47 ∨ c = 59 ∨ c = 44 ∨ c = 63)
  else true

/-- Model of Go net/url.PathEscape: percent-escapes every byte that
shouldEscape flags for a path segment, upper-case hex. -/
def pathEscape (s : List Nat) : List Nat :=
  s.flatMap (fun c =>
    if shouldEscapePathSeg c then [37, upperHexDigit (c / 16), upperHexDigit (c % 16)]
    else [c])

/-- Translation of the decodeLastRune closure inside decode (codec.go): if
the last rune of the accumulated output is neither graphic nor RuneError,
replace its bytes by their path-escaped form. -/
def decodeLastRuneGo (iri : List Nat) : List Nat :=
  let rs := utf8DecodeLastRune iri
  if ¬isGraphic rs.1 ∧ rs.1 ≠ 0xFFFD then
    iri.take (iri.length - rs.2) ++ pathEscape (utf8Encode rs.1)
  else iri

/-- Translation of the loop of decode (codec.go).  The Go guard is
uri[i] == 37 && i+2 <= len(uri) && ishex(uri[i+1]) && ishex(uri[i+2]);
with short-circuit evaluation the access uri[i+2] is reached whenever the
first three conjuncts hold, and it is out of bounds exactly when
i+2 = len(uri): that case is `none` here (Go raises an index-out-of-range
fault).  Otherwise a reserved escape is kept verbatim, a non-reserved escape
is decoded to its byte, and any other byte is copied through; after each
appended byte the last rune is re-validated.  The first argument is a fuel
bound used only to make the recursion structural: every step consumes one
unit of fuel and at least one input byte, so starting the loop with
fuel = input length (as decodeGo does) the zero-fuel case is never reached. -/
def decodeLoopF : Nat → List Nat → List Nat → Option (List Nat)
  | _, iri, [] => some iri
  | 0, iri, _ :: _ => some iri
  | fuel + 1, iri, c :: rest =>
    match rest with
    | [] => decodeLoopF fuel (decodeLastRuneGo (iri ++ [c])) []
    | d1 :: rest1 =>
      if c = 37 ∧ ishex d1 = true then
        match rest1 with
        | [] => none
        | d2 :: rest2 =>
          if ishex d2 = true then
            (if checkReserved (16 * unhex d1 + unhex d2) = true then
              decodeLoopF fuel (iri ++ [37, d1, d2]) rest2
            else
              decodeLoopF fuel (decodeLastRuneGo (iri ++ [16 * unhex d1 + unhex d2])) rest2)
          else decodeLoopF fuel (decodeLastRuneGo (iri ++ [c])) (d1 :: rest1)
      else decodeLoopF fuel (decodeLastRuneGo (iri ++ [c])) (d1 :: rest1)

/-- Translation of decode / Decode (codec.go), `none` = runtime fault. -/
def decodeGo (uri : GoStr) : Option GoStr := decodeLoopF uri.length [] uri

/-! ## internal/reference/reference.go -/

/-- Scan of strings.LastIndexFunc inside reference.Split: walk the reversed
string; at the n-th delimiter (counting from the end) return its byte index
in the original string (the length of the part following it in reversed
order); the closure never fires after its counter reaches zero. -/
def findNthFromEnd (delim : Nat) : Nat → List Nat → Option Nat
  | _, [] => none
  | n, c :: rest =>
    if c = delim then
      (if n ≤ 1 then some rest.length else findNthFromEnd delim (n - 1) rest)
    else findNthFromEnd delim n rest

/-- Body of the builder loop of reference.Join: skip an empty segment,
otherwise write the delimiter when the builder is non-empty, then the
segment. -/
def joinF (delim : Nat) (b s : GoStr) : GoStr :=
  if s = [] then b else (if b = [] then b else b ++ [delim]) ++ s

/-- Translation of reference.Join: returns ref when there are no segments or
all segments are empty (the builder-size count n equals len(segments)-1
exactly when the segment lengths sum to zero); otherwise appends each
non-empty segment, preceded by the delimiter whenever the builder is
non-empty. -/
def refJoin (ref : GoStr) (delim : Nat) (segs : List GoStr) : GoStr :=
  if segs = [] then ref
  else if (segs.map List.length).sum = 0 then ref
  else segs.foldl (joinF delim) ref

/-- Translation of reference.Split: n = 0 is a no-op; otherwise find the n-th
delimiter from the end and keep the text before it, or return the empty
string when there are fewer than n delimiters. -/
def refSplitFn (ref : GoStr) (delim : Nat) (n : Nat) : GoStr :=
  if n = 0 then ref
  else
    match findNthFromEnd delim n ref.reverse with
    | none => []
    | some x => ref.take x

/-! ## curie.go -/

/-- Index of the first ':' byte, as strings.IndexRune(s, 58) (':' is ASCII,
so rune search and byte search agree). -/
def idxOf58 : GoStr → Option Nat
  | [] => none
  | c :: rest => if c = 58 then some 0 else (idxOf58 rest).map (· + 1)

/-- Translation of Split (curie.go): empty gives ("",""); no colon gives
("", text); colon in final position gives (text-before, ""); otherwise the
text before and after the first colon. -/
def Split (iri : GoStr) : GoStr × GoStr :=
  if iri = [] then ([], [])
  else
    match idxOf58 iri with
    | none => ([], iri)
    | some n => if n = iri.length - 1 then (iri.take n, []) else (iri.take n, iri.drop (n + 1))

/-- Translation of Schema (curie.go). -/
def Schema (iri : GoStr) : GoStr := (Split iri).1

/-- Translation of Reference (curie.go). -/
def Reference (iri : GoStr) : GoStr := (Split iri).2

/-- Model of strings.TrimSuffix(s, ":"): drop one trailing ':' if present. -/
def trimColon (s : GoStr) : GoStr :=
  if s.getLast? = some 58 then s.take (s.length - 1) else s

/-- Translation of New (curie.go, two-argument form): empty schema returns
the reference unchanged; otherwise one trailing ':' is stripped from the
schema and schema ++ ":" ++ reference is produced. -/
def New (schema ref : GoStr) : GoStr :=
  if schema = [] then ref else trimColon schema ++ 58 :: ref

/-- Translation of Join (curie.go): split, join the reference with '/',
rebuild with New. -/
def Join (iri : GoStr) (segs : List GoStr) : GoStr :=
  New (Split iri).1 (refJoin (Split iri).2 47 segs)

/-- Translation of Cut (curie.go): split, drop n trailing segments from the
reference, rebuild with New.  Go's n has type int; the claims only use
non-negative counts, and for negative n the Go scan never fires, which is
the behaviour of large n here (empty result). -/
def Cut (iri : GoStr) (n : Nat) : GoStr :=
  New (Split iri).1 (refSplitFn (Split iri).2 47 n)

/-- Translation of Rank (curie.go): 0 = EMPTY, 1 = PREFIX (first colon is
the last byte), 2 = REFERENCE. -/
def Rank (iri : GoStr) : Nat :=
  if iri = [] then 0
  else
    match idxOf58 iri with
    | some n => if n = iri.length - 1 then 1 else 2
    | none => 2

/-- Bytewise lexicographic strict order, Go's < on strings. -/
def goLt : GoStr → GoStr → Bool
  | [], [] => false
  | [], _ :: _ => true
  | _ :: _, [] => false
  | a :: as, b :: bs => if a < b then true else if b < a then false else goLt as bs

/-- Translation of Lt (curie.go): compare by Rank first, then by plain
string order. -/
def Lt (a b : GoStr) : Bool :=
  if Rank a ≠ Rank b then decide (Rank a < Rank b) else goLt a b

/-- Translation of Safe (curie.go): "[" ++ text ++ "]" for non-empty. -/
def Safe (iri : GoStr) : GoStr := if iri = [] then [] else 91 :: iri ++ [93]

/-- String payload handed to json.Marshal by MarshalJSON (curie.go): the
empty string for the empty CURIE, the bracketed safe form otherwise.  The
JSON string quoting itself is done by the external encoding/json package. -/
def marshalVal (iri : GoStr) : GoStr := if iri = [] then [] else Safe iri

/-- Outcome of UnmarshalJSON after the external JSON string decode. -/
inductive JsonRes where
  | ok (s : GoStr)
  | formatErr
  | oob
deriving DecidableEq

/-- Translation of UnmarshalJSON (curie.go) on the decoded string value:
empty is accepted as the empty CURIE; a format error is returned when the
first byte differs from '[' AND the last byte differs from ']' (the Go test
uses &&); otherwise the first and last bytes are sliced away — a slice that
faults (oob) on a one-byte input. -/
def unmarshalVal (val : GoStr) : JsonRes :=
  if val = [] then .ok []
  else if val.head? ≠ some 91 ∧ val.getLast? ≠ some 93 then .formatErr
  else if val.length < 2 then .oob
  else .ok ((val.drop 1).take (val.length - 2))

/-- Model of Namespaces.Lookup: first matching key of the table (Go map keys
are unique, so association-list search is faithful). -/
def Lookup (ns : List (GoStr × GoStr)) (k : GoStr) : Option GoStr :=
  (ns.find? (fun kv => decide (kv.1 = k))).map (fun kv => kv.2)

/-- Resolved absolute text built inside URL (curie.go) before parsing: the
stem concatenated with the reference when the schema is in the table, the
CURIE text itself otherwise. -/
def resolve (ns : List (GoStr × GoStr)) (iri : GoStr) : GoStr :=
  match Lookup ns (Schema iri) with
  | some stem => stem ++ Reference iri
  | none => iri

/-- Modelled slice of Go's net/url.Parse composed with URL.String, the only
use URI makes of the package: Parse rejects any raw URL containing an ASCII
control byte (the stringContainsCTLByte check, C0 controls and DEL), and for
the control-free canonical texts exercised by the theorems below the parsed
URL reserializes to the input unchanged.  Normalizations Parse/String
performs on non-canonical text (scheme case-folding, escape rewriting) are
outside this modelled slice and no theorem below depends on them. -/
def urlParseStr (s : GoStr) : Option GoStr :=
  if s.any (fun b => b < 0x20 ∨ b = 0x7F) then none else some s

/-- Translation of URI (curie.go): the empty CURIE maps to the empty string
(URL returns a zero URL without parsing); otherwise the resolved text is
parsed, a parse error falls back to the CURIE's own text, and success
returns the reserialized URL. -/
def URI (ns : List (GoStr × GoStr)) (iri : GoStr) : GoStr :=
  if iri = [] then []
  else
    match urlParseStr (resolve ns iri) with
    | none => iri
    | some s => s

/-! ## Structural lemmas about Split, New, trimColon -/

theorem idxOf58_not_mem (s : GoStr) (h : 58 ∉ s) : idxOf58 s = none := by
  induction s with
  | nil => rfl
  | cons c t ih =>
    have hc : c ≠ 58 := fun he => h (he ▸ List.mem_cons_self c t)
    have ht : 58 ∉ t := fun hm => h (List.mem_cons_of_mem c hm)
    simp [idxOf58, hc, ih ht]

theorem idxOf58_append (a b : GoStr) (ha : 58 ∉ a) : idxOf58 (a ++ 58 :: b) = some a.length := by
  induction a with
  | nil => simp [idxOf58]
  | cons c t ih =>
    have hc : c ≠ 58 := fun he => ha (he ▸ List.mem_cons_self c t)
    have ht : 58 ∉ t := fun hm => ha (List.mem_cons_of_mem c hm)
    simp [idxOf58, hc, ih ht]

theorem Split_no_colon (s : GoStr) (h : 58 ∉ s) : Split s = ([], s) := by
  by_cases hs : s = []
  · subst hs; rfl
  · simp [Split, hs, idxOf58_not_mem s h]

theorem Split_append (a b : GoStr) (ha : 58 ∉ a) : Split (a ++ 58 :: b) = (a, b) := by
  have hne : a ++ 58 :: b ≠ [] := by simp
  by_cases hb : b = []
  · subst hb
    simp [Split, hne, idxOf58_append a [] ha, List.take_left]
  · have hlen : (a ++ 58 :: b).length - 1 = a.length + b.length := by
      simp [List.length_append]
    have hcond : ¬(a.length = (a ++ 58 :: b).length - 1) := by
      rw [hlen]
      intro he
      exact hb (List.length_eq_zero.mp (by omega))
    have hdrop : (a ++ 58 :: b).drop (a.length + 1) = b := by
      have : a ++ 58 :: b = (a ++ [58]) ++ b := by simp
      rw [this]
      have hl : (a ++ [58]).length = a.length + 1 := by simp
      rw [← hl, List.drop_left]
    simp [Split, hne, idxOf58_append a b ha, hcond, List.take_append_of_le_length,
      List.take_left, hdrop]

theorem mem_decomp (x : GoStr) (h : 58 ∈ x) : ∃ a b, x = a ++ 58 :: b ∧ 58 ∉ a := by
  induction x with
  | nil => cases h
  | cons c t ih =>
    by_cases hc : c = 58
    · exact ⟨[], t, by rw [hc]; rfl, by simp⟩
    · have ht : 58 ∈ t := by
        cases List.mem_cons.mp h with
        | inl he => exact absurd he.symm hc
        | inr hm => exact hm
      obtain ⟨a, b, heq, hna⟩ := ih ht
      exact ⟨c :: a, b, by rw [heq]; rfl, by
        intro hm
        cases List.mem_cons.mp hm with
        | inl he => exact hc he.symm
        | inr hm2 => exact hna hm2⟩

theorem trimColon_not_mem (s : GoStr) (h : 58 ∉ s) : trimColon s = s := by
  unfold trimColon
  rw [if_neg]
  intro hl
  exact h (List.mem_of_mem_getLast? hl)

theorem New_explicit (a b : GoStr) (ha : 58 ∉ a) (hne : a ≠ []) : New a b = a ++ 58 :: b := by
  simp [New, hne, trimColon_not_mem a ha]

theorem not_mem_of_decomp_head (a b : GoStr) (h : (a ++ 58 :: b).head? ≠ some 58) : a ≠ [] := by
  intro he
  subst he
  simp at h

theorem New_Split_roundtrip (x : GoStr) (h : x.head? ≠ some 58) :
    New (Split x).1 (Split x).2 = x := by
  by_cases hmem : 58 ∈ x
  · obtain ⟨a, b, heq, hna⟩ := mem_decomp x hmem
    subst heq
    rw [Split_append a b hna]
    exact New_explicit a b hna (not_mem_of_decomp_head a b h)
  · rw [Split_no_colon x hmem]
    simp [New]

/-! ## Lemmas about reference Join and Split (segment peeling) -/

/-- Slash-intercalation of a segment list: the canonical shape refJoin
produces from non-empty segments. -/
def intercSlash : List GoStr → GoStr
  | [] => []
  | [s] => s
  | s :: t :: rest => s ++ 47 :: intercSlash (t :: rest)

theorem findNthFromEnd_skip (t l : List Nat) (n : Nat) (ht : ∀ c ∈ t, c ≠ 47) :
    findNthFromEnd 47 n (t ++ l) = findNthFromEnd 47 n l := by
  induction t with
  | nil => rfl
  | cons c rest ih =>
    have hc : c ≠ 47 := ht c (List.mem_cons_self c rest)
    have hrest : ∀ x ∈ rest, x ≠ 47 := fun x hx => ht x (List.mem_cons_of_mem c hx)
    simp [findNthFromEnd, hc, ih hrest]

theorem findNthFromEnd_none (s : List Nat) (n : Nat) (h : ∀ c ∈ s, c ≠ 47) :
    findNthFromEnd 47 n s = none := by
  have := findNthFromEnd_skip s [] n h
  simpa using this

theorem findNthFromEnd_lt_length (d n : Nat) (l : List Nat) (x : Nat)
    (h : findNthFromEnd d n l = some x) : x < l.length := by
  induction l generalizing n with
  | nil => cases h
  | cons c rest ih =>
    by_cases hc : c = d
    · by_cases hn : n ≤ 1
      · have : some rest.length = some x := by simpa [findNthFromEnd, hc, hn] using h
        have hx : x = rest.length := (Option.some.injEq _ _).mp this |>.symm ▸ rfl
        simp [← (Option.some.injEq _ _).mp this]
      · have h2 : findNthFromEnd d (n - 1) rest = some x := by
          simpa [findNthFromEnd, hc, hn] using h
        exact Nat.lt_succ_of_lt (ih (n - 1) h2)
    · have h2 : findNthFromEnd d n rest = some x := by
        simpa [findNthFromEnd, hc] using h
      exact Nat.lt_succ_of_lt (ih n h2)

theorem not_mem_imp_ne (s : List Nat) (h : 47 ∉ s) : ∀ c ∈ s, c ≠ 47 := by
  intro c hc he
  exact h (he ▸ hc)

theorem refSplit_peel (a s : GoStr) (n : Nat) (hns : 47 ∉ s) :
    refSplitFn (a ++ 47 :: s) 47 (n + 1) = refSplitFn a 47 n := by
  have hrev : (a ++ 47 :: s).reverse = s.reverse ++ 47 :: a.reverse := by
    simp
  have hsrev : ∀ c ∈ s.reverse, c ≠ 47 := by
    intro c hc
    exact not_mem_imp_ne s hns c (List.mem_reverse.mp hc)
  have hfind : findNthFromEnd 47 (n + 1) ((a ++ 47 :: s).reverse) =
      findNthFromEnd 47 (n + 1) (47 :: a.reverse) := by
    rw [hrev]
    exact findNthFromEnd_skip s.reverse (47 :: a.reverse) (n + 1) hsrev
  by_cases hn : n = 0
  · subst hn
    have h1 : findNthFromEnd 47 1 (47 :: a.reverse) = some a.reverse.length := by
      simp [findNthFromEnd]
    rw [refSplitFn, if_neg (by omega), hfind, h1, List.length_reverse]
    simp [refSplitFn, List.take_left]
  · have hstep : findNthFromEnd 47 (n + 1) (47 :: a.reverse) =
        findNthFromEnd 47 n a.reverse := by
      simp [findNthFromEnd]
      omega
    rw [refSplitFn, if_neg (by omega), hfind, hstep, refSplitFn, if_neg hn]
    cases hf : findNthFromEnd 47 n a.reverse with
    | none => rfl
    | some x =>
      have hx : x < a.length := by
        have := findNthFromEnd_lt_length 47 n a.reverse x hf
        rwa [List.length_reverse] at this
      simp [List.take_append_of_le_length (Nat.le_of_lt hx)]

theorem intercSlash_concat (init : List GoStr) (s : GoStr) (h : init ≠ []) :
    intercSlash (init ++ [s]) = intercSlash init ++ 47 :: s := by
  induction init with
  | nil => exact absurd rfl h
  | cons x t ih =>
    cases t with
    | nil => rfl
    | cons y rest =>
      have h2 : intercSlash ((y :: rest) ++ [s]) = intercSlash (y :: rest) ++ 47 :: s :=
        ih (by simp)
      calc intercSlash ((x :: y :: rest) ++ [s])
          = x ++ 47 :: intercSlash ((y :: rest) ++ [s]) := rfl
        _ = x ++ 47 :: (intercSlash (y :: rest) ++ 47 :: s) := by rw [h2]
        _ = (x ++ 47 :: intercSlash (y :: rest)) ++ 47 :: s := by simp
        _ = intercSlash (x :: y :: rest) ++ 47 :: s := rfl

theorem not_mem_intercSlash (c : Nat) (segs : List GoStr) (hc : c ≠ 47)
    (hs : ∀ s ∈ segs, c ∉ s) : c ∉ intercSlash segs := by
  induction segs with
  | nil => simp [intercSlash]
  | cons x t ih =>
    cases t with
    | nil =>
      simpa [intercSlash] using hs x (List.mem_cons_self x [])
    | cons y rest =>
      intro hmem
      rcases List.mem_append.mp hmem with h1 | h2
      · exact hs x (List.mem_cons_self x _) h1
      · rcases List.mem_cons.mp h2 with he | h3
        · exact hc he
        · exact ih (fun s hsm => hs s (List.mem_cons_of_mem x hsm)) h3

theorem joinF_ne (b s : GoStr) (hs : s ≠ []) (hb : b ≠ []) :
    joinF 47 b s = b ++ 47 :: s := by
  simp [joinF, hs, hb]

theorem joinF_nil (s : GoStr) (hs : s ≠ []) : joinF 47 [] s = s := by
  simp [joinF, hs]

theorem refJoin_foldl_ne (segs : List GoStr) (hs : ∀ s ∈ segs, s ≠ []) (hne : segs ≠ [])
    (b : GoStr) (hb : b ≠ []) :
    segs.foldl (joinF 47) b = b ++ 47 :: intercSlash segs := by
  induction segs generalizing b with
  | nil => exact absurd rfl hne
  | cons x t ih =>
    have hx : x ≠ [] := hs x (List.mem_cons_self x t)
    rw [List.foldl_cons, joinF_ne b x hx hb]
    cases t with
    | nil =>
      rw [List.foldl_nil]
      rfl
    | cons y rest =>
      have ht : ∀ s ∈ y :: rest, s ≠ [] := fun s hsm => hs s (List.mem_cons_of_mem x hsm)
      rw [ih ht (by simp) (b ++ 47 :: x) (by simp)]
      simp [intercSlash]

theorem refJoin_shape (rho : GoStr) (segs : List GoStr) (hne : segs ≠ [])
    (hs : ∀ s ∈ segs, s ≠ []) :
    refJoin rho 47 segs =
      (if rho = [] then intercSlash segs else rho ++ 47 :: intercSlash segs) := by
  obtain ⟨x, t, rfl⟩ : ∃ x t, segs = x :: t := by
    cases segs with
    | nil => exact absurd rfl hne
    | cons x t => exact ⟨x, t, rfl⟩
  have hx : x ≠ [] := hs x (List.mem_cons_self x t)
  have hsum : ¬(((x :: t).map List.length).sum = 0) := by
    intro h0
    simp only [List.map_cons, List.sum_cons] at h0
    exact hx (List.length_eq_zero.mp (by omega))
  rw [refJoin, if_neg (by simp), if_neg hsum]
  by_cases hrho : rho = []
  · subst hrho
    rw [if_pos rfl, List.foldl_cons, joinF_nil x hx]
    cases t with
    | nil =>
      rw [List.foldl_nil]
      rfl
    | cons y rest =>
      have ht : ∀ s ∈ y :: rest, s ≠ [] := fun s hsm => hs s (List.mem_cons_of_mem x hsm)
      rw [refJoin_foldl_ne (y :: rest) ht (by simp) x hx]
      rfl
  · rw [if_neg hrho]
    exact refJoin_foldl_ne (x :: t) hs (by simp) rho hrho
theorem refSplit_interc (segs : List GoStr) (hne : segs ≠ [])
    (hs : ∀ s ∈ segs, s ≠ [] ∧ 47 ∉ s) :
    refSplitFn (intercSlash segs) 47 segs.length = [] := by
  induction segs using List.reverseRecOn with
  | nil => exact absurd rfl hne
  | append_singleton init s ih =>
    by_cases hinit : init = []
    · subst hinit
      have hns : 47 ∉ s := (hs s (by simp)).2
      simp only [List.nil_append, List.length_cons, List.length_nil]
      show refSplitFn (intercSlash [s]) 47 1 = []
      rw [show intercSlash [s] = s from rfl, refSplitFn, if_neg (by omega),
        findNthFromEnd_none s.reverse 1
          (fun c hc => not_mem_imp_ne s hns c (List.mem_reverse.mp hc))]
    · have hns : 47 ∉ s := (hs s (by simp)).2
      rw [intercSlash_concat init s hinit]
      have hlen : (init ++ [s]).length = init.length + 1 := by simp
      rw [hlen, refSplit_peel (intercSlash init) s init.length hns]
      exact ih hinit (fun x hx => hs x (List.mem_append_left [s] hx))

theorem refSplit_rho (rho : GoStr) (segs : List GoStr) (hne : segs ≠ [])
    (hs : ∀ s ∈ segs, s ≠ [] ∧ 47 ∉ s) :
    refSplitFn (rho ++ 47 :: intercSlash segs) 47 segs.length = rho := by
  induction segs using List.reverseRecOn with
  | nil => exact absurd rfl hne
  | append_singleton init s ih =>
    by_cases hinit : init = []
    · subst hinit
      have hns : 47 ∉ s := (hs s (by simp)).2
      show refSplitFn (rho ++ 47 :: intercSlash [s]) 47 ([s].length) = rho
      rw [show intercSlash [s] = s from rfl]
      have := refSplit_peel rho s 0 hns
      simpa [refSplitFn] using this
    · have hns : 47 ∉ s := (hs s (by simp)).2
      rw [intercSlash_concat init s hinit]
      have hassoc : rho ++ 47 :: (intercSlash init ++ 47 :: s) =
          (rho ++ 47 :: intercSlash init) ++ 47 :: s := by
        simp
      have hlen : (init ++ [s]).length = init.length + 1 := by simp
      rw [hlen, hassoc, refSplit_peel (rho ++ 47 :: intercSlash init) s init.length hns]
      exact ih hinit (fun x hx => hs x (List.mem_append_left [s] hx))

theorem Split_New_ne (sigma p : GoStr) (hsig : 58 ∉ sigma) (hne : sigma ≠ []) :
    Split (New sigma p) = (sigma, p) := by
  rw [New_explicit sigma p hsig hne]
  exact Split_append sigma p hsig

theorem Split_New_nil (p : GoStr) (hp : 58 ∉ p) : Split (New [] p) = ([], p) := by
  have : New [] p = p := by simp [New]
  rw [this]
  exact Split_no_colon p hp

theorem Split_cases (x : GoStr) (h : x.head? ≠ some 58) :
    (58 ∉ x ∧ Split x = ([], x)) ∨
      (∃ a b, x = a ++ 58 :: b ∧ 58 ∉ a ∧ a ≠ [] ∧ Split x = (a, b)) := by
  by_cases hmem : 58 ∈ x
  · obtain ⟨a, b, heq, hna⟩ := mem_decomp x hmem
    right
    refine ⟨a, b, heq, hna, not_mem_of_decomp_head a b (heq ▸ h), ?_⟩
    rw [heq]
    exact Split_append a b hna
  · exact Or.inl ⟨hmem, Split_no_colon x hmem⟩

theorem refJoin_nil_segs (r : GoStr) : refJoin r 47 [] = r := by
  simp [refJoin]

theorem refSplitFn_zero (r : GoStr) : refSplitFn r 47 0 = r := by
  simp [refSplitFn]

theorem cut_join_aux (x : GoStr) (segs : List GoStr)
    (hx : x.head? ≠ some 58)
    (hseg : ∀ s ∈ segs, s ≠ [] ∧ 47 ∉ s)
    (hcol : 58 ∉ x → ∀ s ∈ segs, 58 ∉ s) :
    Cut (Join x segs) segs.length = x := by
  rcases Split_cases x hx with ⟨hnc, hS⟩ | ⟨a, b, heq, hna, hane, hS⟩
  · -- schemeless: Split x = ([], x)
    by_cases hsegs : segs = []
    · subst hsegs
      simp only [Join, Cut, hS, refJoin_nil_segs, List.length_nil]
      rw [Split_New_nil x hnc]
      simp only [refSplitFn_zero]
      simp [New]
    · have hs1 : ∀ s ∈ segs, s ≠ [] := fun s hsm => (hseg s hsm).1
      have hp : refJoin x 47 segs =
          (if x = [] then intercSlash segs else x ++ 47 :: intercSlash segs) :=
        refJoin_shape x segs hsegs hs1
      have hcseg : ∀ s ∈ segs, 58 ∉ s := hcol hnc
      have hinterc : 58 ∉ intercSlash segs :=
        not_mem_intercSlash 58 segs (by decide) hcseg
      have hpnc : 58 ∉ refJoin x 47 segs := by
        rw [hp]
        by_cases hxe : x = []
        · simpa [hxe] using hinterc
        · rw [if_neg hxe]
          intro hm
          rcases List.mem_append.mp hm with h1 | h2
          · exact hnc h1
          · rcases List.mem_cons.mp h2 with he | h3
            · cases he
            · exact hinterc h3
      simp only [Join, Cut, hS]
      rw [Split_New_nil (refJoin x 47 segs) hpnc]
      by_cases hxe : x = []
      · rw [hp, if_pos hxe]
        rw [refSplit_interc segs hsegs hseg]
        simp [New, hxe]
      · rw [hp, if_neg hxe]
        rw [refSplit_rho x segs hsegs hseg]
        simp [New]
  · -- x = a ++ 58 :: b with non-empty colon-free schema a
    by_cases hsegs : segs = []
    · subst hsegs
      simp only [Join, Cut, hS, refJoin_nil_segs, List.length_nil]
      rw [Split_New_ne a b hna hane]
      simp only [refSplitFn_zero]
      rw [New_explicit a b hna hane, heq]
    · have hs1 : ∀ s ∈ segs, s ≠ [] := fun s hsm => (hseg s hsm).1
      have hp : refJoin b 47 segs =
          (if b = [] then intercSlash segs else b ++ 47 :: intercSlash segs) :=
        refJoin_shape b segs hsegs hs1
      simp only [Join, Cut, hS]
      rw [Split_New_ne a (refJoin b 47 segs) hna hane]
      by_cases hbe : b = []
      · rw [hp, if_pos hbe]
        rw [refSplit_interc segs hsegs hseg]
        rw [New_explicit a [] hna hane, heq, hbe]
      · rw [hp, if_neg hbe]
        rw [refSplit_rho b segs hsegs hseg]
        rw [New_explicit a b hna hane, heq]

/-! ## Ordering lemmas -/

theorem goLt_irrefl (x : GoStr) : goLt x x = false := by
  induction x with
  | nil => rfl
  | cons a as ih => simp [goLt, ih]

theorem trimColon_head_ne (s : GoStr) (hne : s ≠ []) (hh : s.head? ≠ some 58) :
    trimColon s ≠ [] ∧ (trimColon s).head? = s.head? := by
  unfold trimColon
  by_cases hl : s.getLast? = some 58
  · rw [if_pos hl]
    cases s with
    | nil => exact absurd rfl hne
    | cons c t =>
      cases t with
      | nil =>
        exfalso
        apply hh
        simp at hl
        simp [hl]
      | cons d r =>
        constructor
        · simp
        · simp [List.take_succ_cons]
  · rw [if_neg hl]
    exact ⟨hne, rfl⟩

/-! ## Claims -/

/-- C1 (code bug): the claim states that Decode terminates normally on every
input and copies malformed escapes through, including a truncated escape of
'%' plus one hex digit at the very end of the input.  The code's guard
i+2 <= len(uri) is off by one: on the two-byte input "%4" the short-circuit
conjunction reaches ishex(uri[2]) with len(uri) = 2, an out-of-bounds index
(a runtime fault, modelled as none), instead of copying "%4" through. -/
theorem C1_decode_truncated_escape_fault : decodeGo (strBytes "%4") = none := by
  decide

/-- C2 (amended): Cut after Join returns New(scheme, r) provided the
constructed CURIE does not begin with ':', every joined segment is non-empty
and free of '/', and — when the CURIE contains no ':' at all — the segments
are also free of ':'.  Without these conditions the round trip fails (see
the counterexample). -/
theorem C2_cut_join_roundtrip (scheme r : GoStr) (segs : List GoStr)
    (h1 : (New scheme r).head? ≠ some 58)
    (h2 : ∀ s ∈ segs, s ≠ [] ∧ 47 ∉ s)
    (h3 : 58 ∉ New scheme r → ∀ s ∈ segs, 58 ∉ s) :
    Cut (Join (New scheme r) segs) segs.length = New scheme r :=
  cut_join_aux (New scheme r) segs h1 h2 h3

/-- C2 witness: the round trip at scheme "a", reference "b" and plain
segments "c", "d". -/
theorem C2_cut_join_witness :
    Cut (Join (New (strBytes "a") (strBytes "b")) [strBytes "c", strBytes "d"]) 2 =
      New (strBytes "a") (strBytes "b") :=
  C2_cut_join_roundtrip (strBytes "a") (strBytes "b") [strBytes "c", strBytes "d"]
    (by decide) (by decide) (by decide)

/-- C2 counterexample: the claim quantifies over every reference text and
every list of segments, but the round trip fails (1) when a segment contains
'/' (Cut counts delimiters, not joined segments), (2) when a segment is
empty (Join elides it but Cut still removes a real segment), (3) when the
base CURIE is empty and a segment contains ':' (the joined text re-parses
with a schema), and (4) when the reference begins with ':' (Split discards
the leading colon). -/
theorem C2_cut_join_counterexample :
    Cut (Join (New (strBytes "a") (strBytes "b")) [strBytes "c/d"]) 1 = strBytes "a:b/c" ∧
    strBytes "a:b/c" ≠ New (strBytes "a") (strBytes "b") ∧
    Cut (Join (New (strBytes "a") (strBytes "b/c")) [strBytes ""]) 1 = strBytes "a:b" ∧
    strBytes "a:b" ≠ New (strBytes "a") (strBytes "b/c") ∧
    Cut (Join (New [] []) [strBytes "x:y"]) 1 = strBytes "x:" ∧
    strBytes "x:" ≠ New ([] : GoStr) [] ∧
    Cut (Join (New [] (strBytes ":b")) [strBytes "c"]) 1 = strBytes "b" ∧
    strBytes "b" ≠ New [] (strBytes ":b") := by
  decide

/-- C3 (amended): Lt orders CURIEs by the three-valued Rank (0 empty,
1 schema-only, 2 with reference) and, within equal Rank, by plain bytewise
lexicographic comparison of the whole text; segment counts beyond this
three-valued rank play no role.  Lt(New("a","b"), New("a","c")) is true and
Lt(x, x) is false for every x. -/
theorem C3_lt_ordering :
    (∀ a b : GoStr, Rank a < Rank b → Lt a b = true) ∧
    (∀ a b : GoStr, Rank a = Rank b → Lt a b = goLt a b) ∧
    Lt (New (strBytes "a") (strBytes "b")) (New (strBytes "a") (strBytes "c")) = true ∧
    (∀ x : GoStr, Lt x x = false) := by
  refine ⟨?_, ?_, by decide, ?_⟩
  · intro a b h
    simp [Lt, Nat.ne_of_lt h, h]
  · intro a b h
    simp [Lt, h]
  · intro x
    simp [Lt, goLt_irrefl]

/-- C3 witness: the empty CURIE (Rank 0) sorts before the schema-only CURIE
"a:" (Rank 1), and Lt is irreflexive at "q:r". -/
theorem C3_lt_witness :
    Lt [] (strBytes "a:") = true ∧ Lt (strBytes "q:r") (strBytes "q:r") = false :=
  ⟨C3_lt_ordering.1 [] (strBytes "a:") (by decide),
   C3_lt_ordering.2.2.2 (strBytes "q:r")⟩

/-- C3 counterexample: "z:a" has two segments and "a:b/c/d" four, so the
claim's fewer-segments-first rule demands Lt("z:a", "a:b/c/d") = true, but
both have Rank 2 and plain string order yields false (indeed the code sorts
"a:b/c/d" before "z:a").  Likewise, the third pair below consists of two
three-segment CURIEs (schema "a" with segments "b-", "x" and schema "a"
with segments "b", "c"): segment-by-segment comparison puts the second one
first, since segment "b" is a proper prefix of segment "b-", yet the code
compares whole strings, where the byte 45 sorts before 47 and Lt yields
true. -/
theorem C3_lt_counterexample :
    Lt (strBytes "z:a") (strBytes "a:b/c/d") = false ∧
    Lt (strBytes "a:b/c/d") (strBytes "z:a") = true ∧
    Lt (strBytes "a:b-/x") (strBytes "a:b/c") = true := by
  decide

/-- C4 (amended): the string payload handed to the JSON encoder is the
bracketed safe form for a non-empty CURIE and the empty string for the empty
CURIE; unmarshalling returns a format error for every non-empty decoded
string that NEITHER starts with '[' NOR ends with ']' (the code tests the
two bracket conditions with a conjunction, so a string carrying only one of
the two brackets is not rejected). -/
theorem C4_json_roundtrip :
    (∀ iri : GoStr, iri ≠ [] → marshalVal iri = 91 :: iri ++ [93]) ∧
    marshalVal [] = [] ∧
    (∀ v : GoStr, v ≠ [] → v.head? ≠ some 91 → v.getLast? ≠ some 93 →
      unmarshalVal v = .formatErr) := by
  refine ⟨?_, rfl, ?_⟩
  · intro iri h
    simp [marshalVal, Safe, h]
  · intro v h1 h2 h3
    simp [unmarshalVal, h1, h2, h3]

/-- C4 witness: marshalling "a:b" yields "[a:b]" and unmarshalling the
bracket-free "x" is a format error. -/
theorem C4_json_witness :
    marshalVal (strBytes "a:b") = 91 :: strBytes "a:b" ++ [93] ∧
    unmarshalVal (strBytes "x") = .formatErr :=
  ⟨C4_json_roundtrip.1 (strBytes "a:b") (by decide),
   C4_json_roundtrip.2.2 (strBytes "x") (by decide) (by decide) (by decide)⟩

/-- C4 counterexample: "abc]" is non-empty and does not start with '[', so
the claim demands a format error, but the code's conjunction of the two
bracket tests is false (the last byte is ']'), and unmarshalling silently
strips the first and last bytes, returning the corrupted value "bc". -/
theorem C4_json_counterexample :
    unmarshalVal (strBytes "abc]") = .ok (strBytes "bc") ∧
    strBytes "abc]" ≠ [] ∧
    (strBytes "abc]").head? ≠ some 91 := by
  decide

/-- C5 (amended): URI of the empty CURIE is the empty string; when the
schema is a key of the table and the resolved text stem ++ reference parses
and reserializes to itself under the URL parser (true of canonical,
control-free absolute URIs), URI returns stem ++ reference; when the schema
is not a key and the CURIE text itself round-trips through the parser, the
text is returned unchanged.  The parser round-trip condition cannot be
dropped: see the counterexample. -/
theorem C5_uri_resolution :
    (∀ ns : List (GoStr × GoStr), URI ns [] = []) ∧
    (∀ (ns : List (GoStr × GoStr)) (iri stem : GoStr), iri ≠ [] →
      Lookup ns (Schema iri) = some stem →
      urlParseStr (stem ++ Reference iri) = some (stem ++ Reference iri) →
      URI ns iri = stem ++ Reference iri) ∧
    (∀ (ns : List (GoStr × GoStr)) (iri : GoStr), iri ≠ [] →
      Lookup ns (Schema iri) = none →
      urlParseStr iri = some iri →
      URI ns iri = iri) := by
  refine ⟨fun ns => rfl, ?_, ?_⟩
  · intro ns iri stem hne hlk hparse
    simp [URI, hne, resolve, hlk, hparse]
  · intro ns iri hne hlk hparse
    simp [URI, hne, resolve, hlk, hparse]

/-- C5 witness: the namespace table resolving "wiki:CURIE" to the Wikipedia
article URL. -/
theorem C5_uri_witness :
    URI [(strBytes "wiki", strBytes "http://en.wikipedia.org/wiki/")]
      (strBytes "wiki:CURIE") =
      strBytes "http://en.wikipedia.org/wiki/" ++ Reference (strBytes "wiki:CURIE") :=
  C5_uri_resolution.2.1 _ _ _ (by decide) (by decide) (by decide)

/-- C5 counterexample: with the table mapping schema "a" to the stem
consisting of the control byte 0x01, the schema of "a:b" IS a key of the
table, yet URI does not return stem ++ reference: Go's url.Parse rejects
URLs containing ASCII control bytes, and URI falls back to the CURIE's own
text "a:b". -/
theorem C5_uri_counterexample :
    URI [(strBytes "a", [1])] (strBytes "a:b") = strBytes "a:b" ∧
    Lookup [(strBytes "a", [1])] (Schema (strBytes "a:b")) = some [1] ∧
    URI [(strBytes "a", [1])] (strBytes "a:b") ≠ [1] ++ Reference (strBytes "a:b") := by
  decide

/-- C6 (amended): for every CURIE whose text does not begin with ':',
recomposing the parts of Split with New reconstructs the text exactly.  A
leading ':' is the one shape Split cannot reproduce (see counterexample). -/
theorem C6_split_new_roundtrip (x : GoStr) (h : x.head? ≠ some 58) :
    New (Schema x) (Reference x) = x :=
  New_Split_roundtrip x h

/-- C6 witness: the round trip at "a:b/c". -/
theorem C6_split_new_witness :
    New (Schema (strBytes "a:b/c")) (Reference (strBytes "a:b/c")) = strBytes "a:b/c" :=
  C6_split_new_roundtrip (strBytes "a:b/c") (by decide)

/-- C6 counterexample: Split(":b") = ("", "b") and New("", "b") = "b", so
the recomposition drops the leading colon and differs from the original
text, refuting the claim's universal quantification over every CURIE. -/
theorem C6_split_new_counterexample :
    New (Schema (strBytes ":b")) (Reference (strBytes ":b")) = strBytes "b" ∧
    strBytes "b" ≠ strBytes ":b" := by
  decide

/-- C7 (amended): joining a single empty segment is a pure no-op returning
the CURIE text unchanged, for every CURIE whose text does not begin with
':'.  For a text with a leading colon the Split/New recomposition inside
Join rewrites the text even though the segment list contributes nothing
(see counterexample). -/
theorem C7_join_empty_noop (x : GoStr) (h : x.head? ≠ some 58) :
    Join x [strBytes ""] = x := by
  have h1 : refJoin (Split x).2 47 [strBytes ""] = (Split x).2 := by
    simp [refJoin, strBytes]
  simp only [Join, h1]
  exact New_Split_roundtrip x h

/-- C7 witness: Join with an empty segment leaves "a:b/c" unchanged. -/
theorem C7_join_empty_witness :
    Join (strBytes "a:b/c") [strBytes ""] = strBytes "a:b/c" :=
  C7_join_empty_noop (strBytes "a:b/c") (by decide)

/-- C7 counterexample: Join(":b", "") = "b" ≠ ":b" — the empty segment is
elided, but rebuilding via Split and New drops the leading colon, so Join
with an empty segment is not a no-op on every CURIE as claimed. -/
theorem C7_join_empty_counterexample :
    Join (strBytes ":b") [strBytes ""] = strBytes "b" ∧
    strBytes "b" ≠ strBytes ":b" := by
  decide

/-- C8 (amended): New(scheme, reference) never produces text with a bare
leading ':' provided the scheme does not itself begin with ':' and, when
the scheme is empty, the reference does not begin with ':'.  The exceptions
are forced: New(":", r) trims the lone colon from the scheme and then
prints ":" ++ r, and New("", r) returns r verbatim. -/
theorem C8_no_leading_colon (schema ref : GoStr) (hs : schema.head? ≠ some 58)
    (hr : schema = [] → ref.head? ≠ some 58) :
    (New schema ref).head? ≠ some 58 := by
  by_cases he : schema = []
  · simpa [New, he] using hr he
  · obtain ⟨htne, hth⟩ := trimColon_head_ne schema he hs
    rw [New, if_neg he]
    cases htc : trimColon schema with
    | nil => exact absurd htc htne
    | cons c t =>
      have hc : c ≠ 58 := by
        intro hce
        apply hs
        rw [← hth, htc, hce]
        rfl
      simp [hc]

/-- C8 witness: New("a", "b") = "a:b" does not begin with ':'. -/
theorem C8_no_leading_colon_witness :
    (New (strBytes "a") (strBytes "b")).head? ≠ some 58 :=
  C8_no_leading_colon (strBytes "a") (strBytes "b") (by decide) (by decide)

/-- C8 counterexample: the claim quantifies over every scheme and reference
string, but New(":", "b") = ":b" (the trailing-colon trim empties the
scheme, which is then printed as a bare leading colon) and New("", ":b")
= ":b" both begin with ':'. -/
theorem C8_no_leading_colon_counterexample :
    (New (strBytes ":") (strBytes "b")).head? = some 58 ∧
    (New [] (strBytes ":b")).head? = some 58 := by
  decide

/-- C9 (confirmed): a valid two-hex-digit escape decoding to an RFC 3987
reserved delimiter is appended to the output verbatim and scanning resumes
after it, at any point of the input; concretely Decode("%3A%2F") = "%3A%2F",
while escapes forming valid multi-byte UTF-8 graphic characters are decoded
to the literal character: Decode("%CE%B1") = "α". -/
theorem C9_decode_reserved_utf8 :
    (∀ (fuel : Nat) (iri : List Nat) (d1 d2 : Nat) (rest : List Nat),
      ishex d1 = true → ishex d2 = true →
      checkReserved (16 * unhex d1 + unhex d2) = true →
      decodeLoopF (fuel + 1) iri (37 :: d1 :: d2 :: rest) =
        decodeLoopF fuel (iri ++ [37, d1, d2]) rest) ∧
    decodeGo (strBytes "%3A%2F") = some (strBytes "%3A%2F") ∧
    decodeGo (strBytes "%CE%B1") = some (strBytes "α") := by
  refine ⟨?_, by decide, by decide⟩
  intro fuel iri d1 d2 rest h1 h2 h3
  simp [decodeLoopF, h1, h2, h3]

/-- C9 witness: the reserved escape "%3A" (':' = byte 58) is kept verbatim
by one step of the scan. -/
theorem C9_decode_reserved_utf8_witness :
    ishex 51 = true ∧ ishex 65 = true ∧ checkReserved (16 * unhex 51 + unhex 65) = true ∧
    decodeLoopF 1 [] [37, 51, 65] = decodeLoopF 0 [37, 51, 65] [] :=
  ⟨by decide, by decide, by decide,
   C9_decode_reserved_utf8.1 0 [] 51 65 [] (by decide) (by decide) (by decide)⟩

/-- C10 (confirmed): URI returns a plain string and never an error: whenever
the resolved absolute text fails the underlying URL parser, the error is
discarded and the CURIE's own raw text is returned instead. -/
theorem C10_uri_error_fallback (ns : List (GoStr × GoStr)) (iri : GoStr)
    (hne : iri ≠ []) (hfail : urlParseStr (resolve ns iri) = none) :
    URI ns iri = iri := by
  simp [URI, hne, hfail]

/-- C10 witness: the one-byte CURIE 0x02 is a control byte, so the parse of
its resolved text fails and URI returns the raw text. -/
theorem C10_uri_error_fallback_witness : URI [] [2] = [2] :=
  C10_uri_error_fallback [] [2] (by decide) (by decide)

end Curie
